import Mathlib

/-!
Verification of the core logic of a read-only PostgreSQL MCP server.

The development shallowly embeds the Python source:
* strings are modelled as `List Char` (Python `str` is a sequence of chars);
* `dict`/`set` values that are only used for membership or ordered
  iteration are modelled as association lists / lists;
* fallible code returns `Except`;
* the database connection is externalised: functions take the rows the
  connection would return as an explicit argument.

Embedded modules:
* `pg_mcp_server/database/queries.py`   (validation, hashing, params, execute)
* `pg_mcp_server/database/relationships.py` (BFS join-path search)
* `pg_mcp_server/tools/query_tools.py`  (error classification, limit clamp)
* `pg_mcp_server/tools/relationship_tools.py` (max_depth clamp)
* `pg_mcp_server/errors.py`             (find_similar_names)
-/

/-! ## Generic list/char utilities used by the embedding -/

/-- Concatenation of the images of `f`, preserving order (Python's repeated
`list.append` inside a loop). -/
def concatMap (f : α → List β) : List α → List β
  | [] => []
  | a :: l => f a ++ concatMap f l

theorem mem_concatMap {f : α → List β} {b : β} :
    ∀ {l : List α}, b ∈ concatMap f l ↔ ∃ a ∈ l, b ∈ f a := by
  intro l
  induction l with
  | nil => simp [concatMap]
  | cons a l ih => simp [concatMap, ih]

/-- Python's substring test `pat in hay` (contiguous occurrence; the empty
pattern occurs in every string). -/
def containsSub (hay pat : List Char) : Bool :=
  if pat.isPrefixOf hay then true
  else
    match hay with
    | [] => false
    | _ :: t => containsSub t pat

/-- Python's `\w` word characters for the ASCII range used by SQL keywords:
letters, digits and underscore. -/
def isWordChar (c : Char) : Bool :=
  c.isAlpha || c.isDigit || c = '_'

/-! ## Tool-layer numeric clamping
(`query_tools.py` line 70, `relationship_tools.py` line 129).
Python ints are unbounded, hence `Int`. -/

/-- `limit = max(1, min(10000, limit))` from `execute_query`. -/
def clamp_limit (limit : Int) : Int := max 1 (min 10000 limit)

/-- `max_depth = max(1, min(6, max_depth))` from `find_join_path`. -/
def clamp_max_depth (max_depth : Int) : Int := max 1 (min 6 max_depth)

/-! ## Error classification
(`query_tools.py` lines 100-109 for `execute_query` and 189-196 for
`explain_query`).  The classifiers inspect the lower-cased error text. -/

namespace ErrorCode

def INVALID_SQL : String := "INVALID_SQL"

def WRITE_OPERATION_DENIED : String := "WRITE_OPERATION_DENIED"

def QUERY_TIMEOUT : String := "QUERY_TIMEOUT"

def CONNECTION_ERROR : String := "CONNECTION_ERROR"

def PERMISSION_DENIED : String := "PERMISSION_DENIED"

end ErrorCode

/-- Classification of a non-validation failure in the `execute_query` tool:
timeout, then permission/denied, then syntax, else connection error. -/
def classify_execute_error (err : List Char) : String :=
  let s := err.map Char.toLower
  if containsSub s "timeout".toList then ErrorCode.QUERY_TIMEOUT
  else if containsSub s "permission".toList || containsSub s "denied".toList then
    ErrorCode.PERMISSION_DENIED
  else if containsSub s "syntax".toList then ErrorCode.INVALID_SQL
  else ErrorCode.CONNECTION_ERROR

/-- Classification of a non-validation failure in the `explain_query` tool:
timeout, then syntax, else connection error (there is no permission branch
in the source of this handler). -/
def classify_explain_error (err : List Char) : String :=
  let s := err.map Char.toLower
  if containsSub s "timeout".toList then ErrorCode.QUERY_TIMEOUT
  else if containsSub s "syntax".toList then ErrorCode.INVALID_SQL
  else ErrorCode.CONNECTION_ERROR

/-! ## Claim C10: clamping of out-of-range numeric inputs -/

/-- C10: `execute_query` clamps `limit` to `[1, 10000]` and `find_join_path`
clamps `max_depth` to `[1, 6]`; in-range values pass through unchanged and
out-of-range values are moved to the nearest bound, never rejected. -/
theorem C10_clamping (l d : Int) :
    1 ≤ clamp_limit l ∧ clamp_limit l ≤ 10000 ∧
    (1 ≤ l → l ≤ 10000 → clamp_limit l = l) ∧
    (l < 1 → clamp_limit l = 1) ∧
    (10000 < l → clamp_limit l = 10000) ∧
    1 ≤ clamp_max_depth d ∧ clamp_max_depth d ≤ 6 ∧
    (1 ≤ d → d ≤ 6 → clamp_max_depth d = d) ∧
    (d < 1 → clamp_max_depth d = 1) ∧
    (6 < d → clamp_max_depth d = 6) := by
  unfold clamp_limit clamp_max_depth
  refine ⟨?_, ?_, ?_, ?_, ?_, ?_, ?_, ?_, ?_, ?_⟩ <;> omega

/-- Witness for C10 at concrete out-of-range and in-range inputs. -/
theorem C10_clamping_witness :
    clamp_limit 0 = 1 ∧ clamp_limit 20000 = 10000 ∧ clamp_limit 500 = 500 ∧
    clamp_max_depth 7 = 6 ∧ clamp_max_depth (-3) = 1 ∧ clamp_max_depth 4 = 4 :=
  ⟨(C10_clamping 0 0).2.2.2.1 (by decide),
   (C10_clamping 20000 0).2.2.2.2.1 (by decide),
   (C10_clamping 500 0).2.2.1 (by decide) (by decide),
   (C10_clamping 0 7).2.2.2.2.2.2.2.2.2 (by decide),
   (C10_clamping 0 (-3)).2.2.2.2.2.2.2.2.1 (by decide),
   (C10_clamping 0 4).2.2.2.2.2.2.2.1 (by decide) (by decide)⟩

/-! ## Claim C5: error classification in the two query tools

The `execute_query` handler classifies timeout, then permission ("permission"
or "denied" substring), then syntax, else connection error.  The
`explain_query` handler has no permission branch at all, so the claim that
both tools map permission-related text to PERMISSION_DENIED fails. -/

/-- C5 counterexample: a permission-related driver error is classified as
PERMISSION_DENIED by the `execute_query` handler but as CONNECTION_ERROR by
the `explain_query` handler, refuting the claim that both tools share the
four-way classification. -/
theorem C5_counterexample :
    classify_execute_error "permission denied for relation users".toList =
      ErrorCode.PERMISSION_DENIED ∧
    classify_explain_error "permission denied for relation users".toList =
      ErrorCode.CONNECTION_ERROR ∧
    ErrorCode.CONNECTION_ERROR ≠ ErrorCode.PERMISSION_DENIED := by
  refine ⟨by decide, by decide, by decide⟩

/-- C5 (amended): `execute_query` classifies a non-validation failure by
substring inspection of the lower-cased error text as timeout, then
permission ("permission" or "denied"), then syntax, else connection error;
`explain_query` classifies only timeout, then syntax, else connection error,
so a permission-related failure there surfaces as CONNECTION_ERROR and
`explain_query` never yields PERMISSION_DENIED. -/
theorem C5_classification (err : List Char) :
    (classify_execute_error err = ErrorCode.QUERY_TIMEOUT ↔
      containsSub (err.map Char.toLower) "timeout".toList = true) ∧
    (classify_execute_error err = ErrorCode.PERMISSION_DENIED ↔
      containsSub (err.map Char.toLower) "timeout".toList = false ∧
      (containsSub (err.map Char.toLower) "permission".toList = true ∨
       containsSub (err.map Char.toLower) "denied".toList = true)) ∧
    (classify_execute_error err = ErrorCode.INVALID_SQL ↔
      containsSub (err.map Char.toLower) "timeout".toList = false ∧
      containsSub (err.map Char.toLower) "permission".toList = false ∧
      containsSub (err.map Char.toLower) "denied".toList = false ∧
      containsSub (err.map Char.toLower) "syntax".toList = true) ∧
    (classify_execute_error err = ErrorCode.CONNECTION_ERROR ↔
      containsSub (err.map Char.toLower) "timeout".toList = false ∧
      containsSub (err.map Char.toLower) "permission".toList = false ∧
      containsSub (err.map Char.toLower) "denied".toList = false ∧
      containsSub (err.map Char.toLower) "syntax".toList = false) ∧
    (classify_explain_error err = ErrorCode.QUERY_TIMEOUT ↔
      containsSub (err.map Char.toLower) "timeout".toList = true) ∧
    (classify_explain_error err = ErrorCode.INVALID_SQL ↔
      containsSub (err.map Char.toLower) "timeout".toList = false ∧
      containsSub (err.map Char.toLower) "syntax".toList = true) ∧
    (classify_explain_error err = ErrorCode.CONNECTION_ERROR ↔
      containsSub (err.map Char.toLower) "timeout".toList = false ∧
      containsSub (err.map Char.toLower) "syntax".toList = false) ∧
    classify_explain_error err ≠ ErrorCode.PERMISSION_DENIED := by
  unfold classify_execute_error classify_explain_error
  rcases htm : containsSub (err.map Char.toLower) "timeout".toList <;>
    rcases hpe : containsSub (err.map Char.toLower) "permission".toList <;>
      rcases hde : containsSub (err.map Char.toLower) "denied".toList <;>
        rcases hsy : containsSub (err.map Char.toLower) "syntax".toList <;>
          simp_all [ErrorCode.QUERY_TIMEOUT, ErrorCode.PERMISSION_DENIED,
            ErrorCode.INVALID_SQL, ErrorCode.CONNECTION_ERROR]

/-! ## Query validator (`queries.py` lines 16-110)

`BLOCKED_PATTERN` is the regex `\b(KW1|...|KWn)\b` compiled with
`re.IGNORECASE`; `BLOCKED_PATTERN.search(sql)` succeeds exactly when some
blocked keyword occurs in `sql` as a case-insensitive whole word (neighbouring
characters, if any, are not `\w` word characters).  The searcher is embedded
as a left-to-right scanner that tracks whether the previous character was a
word character. -/

/-- The blocked keywords of `queries.py` (PRD Section 8.1).  The source keeps
them in a `set`; membership is all that matters for the search. -/
def BLOCKED_KEYWORDS : List String :=
  ["INSERT", "UPDATE", "DELETE", "UPSERT", "MERGE",
   "CREATE", "ALTER", "DROP", "TRUNCATE", "RENAME",
   "GRANT", "REVOKE",
   "SET", "RESET", "DISCARD",
   "VACUUM", "ANALYZE", "CLUSTER", "REINDEX", "COPY",
   "BEGIN", "COMMIT", "ROLLBACK", "SAVEPOINT"]

/-- Case-insensitive match of `kw` at the very start of `s`, with the
character right after the match (if any) not a word character. -/
def matchesKeywordAt (kw s : List Char) : Bool :=
  decide ((s.take kw.length).map Char.toLower = kw.map Char.toLower) &&
  match s.drop kw.length with
  | [] => true
  | c :: _ => !isWordChar c

/-- Scan `s` left to right for a whole-word occurrence of `kw`; `prevWord`
records whether the character immediately before `s` is a word character
(`false` at the start of the text). -/
def hasKeywordFrom (kw : List Char) : List Char → Bool → Bool
  | [], _ => false
  | c :: rest, prevWord =>
      (!prevWord && matchesKeywordAt kw (c :: rest)) ||
      hasKeywordFrom kw rest (isWordChar c)

/-- Embedding of `BLOCKED_PATTERN.search(sql) is not None`. -/
def BLOCKED_PATTERN_search (s : List Char) : Bool :=
  BLOCKED_KEYWORDS.any (fun kw => hasKeywordFrom kw.toList s false)

/-- Python's `str.lstrip()` over the whitespace alphabet of the model. -/
def trimLeftChars (s : List Char) : List Char := s.dropWhile Char.isWhitespace

/-- Python's `str.rstrip()`. -/
def trimRightChars (s : List Char) : List Char :=
  (s.reverse.dropWhile Char.isWhitespace).reverse

/-- Python's `str.strip()`. -/
def stripChars (s : List Char) : List Char := trimRightChars (trimLeftChars s)

/-- Validation error raised by `validate_query` (class `QueryValidationError`;
only the machine-readable `code` is relevant to the claims). -/
structure QueryValidationError where
  code : String
deriving DecidableEq, Repr

/-- Embedding of `QueryService.validate_query`: blocked-keyword scan first,
then the `SELECT`/`WITH` prefix check on the stripped, upper-cased text. -/
def validate_query (sql : List Char) : Except QueryValidationError Unit :=
  if BLOCKED_PATTERN_search sql then
    .error ⟨"WRITE_OPERATION_DENIED"⟩
  else if !("SELECT".toList.isPrefixOf ((stripChars sql).map Char.toUpper) ||
            "WITH".toList.isPrefixOf ((stripChars sql).map Char.toUpper)) then
    .error ⟨"INVALID_SQL"⟩
  else .ok ()

/-! Specification-side predicates for C1, written from the claim's words. -/

/-- The keyword `kw` occurs in `s` as a case-insensitive whole word: some
contiguous slice of `s` equals `kw` up to case and the characters adjacent to
the slice (when they exist) are not word characters. -/
def OccursAsWholeWord (kw s : List Char) : Prop :=
  ∃ pre occ post, s = pre ++ occ ++ post ∧
    occ.map Char.toLower = kw.map Char.toLower ∧
    (∀ c, pre.getLast? = some c → isWordChar c = false) ∧
    (∀ c, post.head? = some c → isWordChar c = false)

/-- Some fixed blocked keyword occurs in `s` as a case-insensitive whole
word. -/
def ContainsBlockedKeyword (s : List Char) : Prop :=
  ∃ kw ∈ BLOCKED_KEYWORDS, OccursAsWholeWord kw.toList s

/-- After trimming leading whitespace and ignoring case, `s` begins with
`SELECT` or `WITH`. -/
def StartsWithSelectOrWith (s : List Char) : Prop :=
  (∃ r, (trimLeftChars s).map Char.toUpper = "SELECT".toList ++ r) ∨
  (∃ r, (trimLeftChars s).map Char.toUpper = "WITH".toList ++ r)

/-! Bridge lemmas between the executable scanner and the specification
predicates of C1. -/

theorem prefixOf_iff {p l : List Char} :
    p.isPrefixOf l = true ↔ ∃ t, l = p ++ t := by
  induction p generalizing l with
  | nil => simp [List.isPrefixOf]
  | cons a p' ih =>
    cases l with
    | nil => simp [List.isPrefixOf]
    | cons b l' =>
      simp only [List.isPrefixOf, Bool.and_eq_true, beq_iff_eq, ih,
        List.cons_append, List.cons.injEq]
      constructor
      · rintro ⟨rfl, t, rfl⟩
        exact ⟨t, rfl, rfl⟩
      · rintro ⟨t, rfl, rfl⟩
        exact ⟨rfl, t, rfl⟩

/-- Boundary condition to the left of a candidate match: the character just
before it (the last of `pre`, or the one summarized by `prev` when `pre` is
empty) is not a word character. -/
def boundaryBefore (prev : Bool) (pre : List Char) : Prop :=
  match pre.getLast? with
  | none => prev = false
  | some c => isWordChar c = false

theorem boundaryBefore_nil (prev : Bool) :
    boundaryBefore prev [] ↔ prev = false := by
  simp [boundaryBefore]

theorem boundaryBefore_cons (prev : Bool) (c : Char) (pre : List Char) :
    boundaryBefore prev (c :: pre) ↔ boundaryBefore (isWordChar c) pre := by
  cases pre with
  | nil => simp [boundaryBefore, List.getLast?_singleton]
  | cons d pre' =>
    cases h : (d :: pre').getLast? with
    | none => exact absurd h (by simp)
    | some e => simp [boundaryBefore, List.getLast?_cons_cons, h]

theorem boundaryBefore_false_iff (pre : List Char) :
    boundaryBefore false pre ↔
    (∀ c, pre.getLast? = some c → isWordChar c = false) := by
  unfold boundaryBefore
  cases h : pre.getLast? with
  | none => simp
  | some c =>
    constructor
    · intro hw c' hc'
      cases hc'
      exact hw
    · intro hall
      exact hall c rfl

theorem matchesKeywordAt_iff {kw s : List Char} :
    matchesKeywordAt kw s = true ↔
    ∃ occ post, s = occ ++ post ∧
      occ.map Char.toLower = kw.map Char.toLower ∧
      (∀ c, post.head? = some c → isWordChar c = false) := by
  unfold matchesKeywordAt
  rw [Bool.and_eq_true, decide_eq_true_iff]
  constructor
  · rintro ⟨htake, hafter⟩
    refine ⟨s.take kw.length, s.drop kw.length, (s.take_append_drop _).symm,
      htake, ?_⟩
    intro c hc
    cases hdrop : s.drop kw.length with
    | nil => rw [hdrop] at hc; cases hc
    | cons d t =>
      rw [hdrop] at hafter hc
      cases hc
      simpa using hafter
  · rintro ⟨occ, post, rfl, hocc, hafter⟩
    have hlen : occ.length = kw.length := by
      have := congrArg List.length hocc
      simpa using this
    have htake : (occ ++ post).take kw.length = occ := by
      rw [← hlen, List.take_left]
    have hdrop : (occ ++ post).drop kw.length = post := by
      rw [← hlen, List.drop_left]
    refine ⟨by rw [htake]; exact hocc, ?_⟩
    rw [hdrop]
    cases post with
    | nil => simp
    | cons d t => simpa using hafter d rfl

theorem hasKeywordFrom_iff {kw : List Char} (hkw : kw ≠ []) :
    ∀ (s : List Char) (prev : Bool),
      hasKeywordFrom kw s prev = true ↔
      ∃ pre occ post, s = pre ++ occ ++ post ∧
        occ.map Char.toLower = kw.map Char.toLower ∧
        boundaryBefore prev pre ∧
        (∀ c, post.head? = some c → isWordChar c = false) := by
  intro s
  induction s with
  | nil =>
    intro prev
    simp only [hasKeywordFrom, Bool.false_eq_true, false_iff]
    rintro ⟨pre, occ, post, heq, hocc, -, -⟩
    have h0 : pre ++ occ ++ post = [] := heq.symm
    have : occ = [] := by
      rcases List.append_eq_nil.mp h0 with ⟨h1, -⟩
      exact (List.append_eq_nil.mp h1).2
    subst this
    cases kw with
    | nil => exact hkw rfl
    | cons a t => simp at hocc
  | cons c rest ih =>
    intro prev
    simp only [hasKeywordFrom, Bool.or_eq_true, Bool.and_eq_true,
      Bool.not_eq_true']
    constructor
    · rintro (⟨hprev, hmatch⟩ | hrec)
      · obtain ⟨occ, post, heq, hocc, hafter⟩ := matchesKeywordAt_iff.mp hmatch
        exact ⟨[], occ, post, by simpa using heq, hocc,
          (boundaryBefore_nil prev).mpr hprev, hafter⟩
      · obtain ⟨pre', occ, post, heq, hocc, hbefore, hafter⟩ :=
          (ih (isWordChar c)).mp hrec
        refine ⟨c :: pre', occ, post, ?_, hocc, ?_, hafter⟩
        · simp [heq]
        · exact (boundaryBefore_cons prev c pre').mpr hbefore
    · rintro ⟨pre, occ, post, heq, hocc, hbefore, hafter⟩
      cases pre with
      | nil =>
        left
        refine ⟨(boundaryBefore_nil prev).mp hbefore, ?_⟩
        exact matchesKeywordAt_iff.mpr ⟨occ, post, by simpa using heq, hocc,
          hafter⟩
      | cons c' pre' =>
        right
        obtain ⟨hc1, hc2⟩ : c' = c ∧ pre' ++ (occ ++ post) = rest := by
          simpa using heq.symm
        refine (ih (isWordChar c)).mpr ⟨pre', occ, post, ?_, hocc, ?_, hafter⟩
        · rw [List.append_assoc]
          exact hc2.symm
        · rw [← hc1]
          exact (boundaryBefore_cons prev c' pre').mp hbefore

theorem BLOCKED_PATTERN_search_iff (s : List Char) :
    BLOCKED_PATTERN_search s = true ↔ ContainsBlockedKeyword s := by
  unfold BLOCKED_PATTERN_search ContainsBlockedKeyword
  rw [List.any_eq_true]
  have hne : ∀ kw ∈ BLOCKED_KEYWORDS, kw.toList ≠ [] := by decide
  constructor
  · rintro ⟨kw, hkw, hscan⟩
    obtain ⟨pre, occ, post, heq, hocc, hbefore, hafter⟩ :=
      (hasKeywordFrom_iff (hne kw hkw) s false).mp hscan
    exact ⟨kw, hkw, pre, occ, post, heq, hocc,
      (boundaryBefore_false_iff pre).mp hbefore, hafter⟩
  · rintro ⟨kw, hkw, pre, occ, post, heq, hocc, hbefore, hafter⟩
    refine ⟨kw, hkw, (hasKeywordFrom_iff (hne kw hkw) s false).mpr
      ⟨pre, occ, post, heq, hocc, (boundaryBefore_false_iff pre).mpr hbefore,
        hafter⟩⟩

theorem trimRight_append (u : List Char) :
    u = trimRightChars u ++ (u.reverse.takeWhile Char.isWhitespace).reverse := by
  unfold trimRightChars
  conv_lhs => rw [← List.reverse_reverse u,
    ← List.takeWhile_append_dropWhile (p := Char.isWhitespace) (l := u.reverse)]
  rw [List.reverse_append]

theorem toUpper_of_ws {c : Char} (h : c.isWhitespace = true) :
    c.toUpper = c := by
  have h' : c = ' ' ∨ c = '\t' ∨ c = '\r' ∨ c = '\n' := by
    simpa [Char.isWhitespace, or_assoc] using h
  rcases h' with rfl | rfl | rfl | rfl <;> decide

theorem prefix_strip_iff {K : List Char}
    (hK : ∀ c ∈ K, c.isWhitespace = false) (s : List Char) :
    (K.isPrefixOf ((stripChars s).map Char.toUpper) = true) ↔
    ∃ r, (trimLeftChars s).map Char.toUpper = K ++ r := by
  set u := trimLeftChars s with hu
  show (K.isPrefixOf ((trimRightChars u).map Char.toUpper) = true) ↔
    ∃ r, u.map Char.toUpper = K ++ r
  rw [prefixOf_iff]
  have hsplit : u.map Char.toUpper =
      (trimRightChars u).map Char.toUpper ++
      ((u.reverse.takeWhile Char.isWhitespace).reverse.map Char.toUpper) := by
    conv_lhs => rw [trimRight_append u]
    rw [List.map_append]
  have hws : ∀ c ∈ (u.reverse.takeWhile Char.isWhitespace).reverse.map
      Char.toUpper, c.isWhitespace = true := by
    intro c hc
    rw [List.mem_map] at hc
    obtain ⟨d, hd, rfl⟩ := hc
    rw [List.mem_reverse] at hd
    have hdws : d.isWhitespace = true := List.mem_takeWhile_imp hd
    rw [toUpper_of_ws hdws]
    exact hdws
  constructor
  · rintro ⟨t, ht⟩
    refine ⟨t ++ (u.reverse.takeWhile Char.isWhitespace).reverse.map
      Char.toUpper, ?_⟩
    rw [hsplit, ht, List.append_assoc]
  · rintro ⟨r, hr⟩
    have heq : K ++ r = (trimRightChars u).map Char.toUpper ++
        ((u.reverse.takeWhile Char.isWhitespace).reverse.map Char.toUpper) :=
      hr.symm.trans hsplit
    rcases List.append_eq_append_iff.mp heq with ⟨a', ha1, -⟩ | ⟨c', hc1, hc2⟩
    · exact ⟨a', ha1⟩
    · cases c' with
      | nil =>
        have hKA : K = (trimRightChars u).map Char.toUpper := by
          simpa using hc1
        exact ⟨[], by rw [List.append_nil, hKA]⟩
      | cons x xs =>
        have hx1 : x ∈ K := by
          rw [hc1]
          exact List.mem_append_right _ (List.mem_cons_self x xs)
        have hx2 : x.isWhitespace = true := by
          refine hws x ?_
          rw [hc2]
          exact List.mem_append_left _ (List.mem_cons_self x xs)
        rw [hK x hx1] at hx2
        cases hx2

theorem startsWith_check_iff (s : List Char) :
    ("SELECT".toList.isPrefixOf ((stripChars s).map Char.toUpper) ||
     "WITH".toList.isPrefixOf ((stripChars s).map Char.toUpper)) = true ↔
    StartsWithSelectOrWith s := by
  rw [Bool.or_eq_true]
  unfold StartsWithSelectOrWith
  rw [prefix_strip_iff (by decide) s, prefix_strip_iff (by decide) s]

/-! ## Claim C1: behaviour of `validate_query` -/

/-- C1: `validate_query` fails with WRITE_OPERATION_DENIED exactly when the
text contains one of the fixed blocked keywords as a case-insensitive whole
word (this check running first); otherwise it fails with INVALID_SQL exactly
when the text, after trimming leading whitespace and ignoring case, does not
begin with SELECT or WITH; otherwise it succeeds. -/
theorem C1_validate_query (s : List Char) :
    (validate_query s = .error ⟨"WRITE_OPERATION_DENIED"⟩ ↔
      ContainsBlockedKeyword s) ∧
    (¬ ContainsBlockedKeyword s →
      (validate_query s = .error ⟨"INVALID_SQL"⟩ ↔
        ¬ StartsWithSelectOrWith s)) ∧
    (¬ ContainsBlockedKeyword s → StartsWithSelectOrWith s →
      validate_query s = .ok ()) := by
  unfold validate_query
  cases hb : BLOCKED_PATTERN_search s with
  | true =>
    have hcb : ContainsBlockedKeyword s := (BLOCKED_PATTERN_search_iff s).mp hb
    refine ⟨by simp [hcb], fun hn => absurd hcb hn, fun hn => absurd hcb hn⟩
  | false =>
    have hnb : ¬ ContainsBlockedKeyword s := by
      intro hcb
      rw [← BLOCKED_PATTERN_search_iff] at hcb
      rw [hb] at hcb
      cases hcb
    cases hp : ("SELECT".toList.isPrefixOf ((stripChars s).map Char.toUpper) ||
        "WITH".toList.isPrefixOf ((stripChars s).map Char.toUpper)) with
    | false =>
      have hns : ¬ StartsWithSelectOrWith s := by
        intro hs
        rw [← startsWith_check_iff] at hs
        rw [hp] at hs
        cases hs
      simp only [Bool.not_false, if_true, if_false]
      refine ⟨?_, fun _ => ?_, fun _ hs => absurd hs hns⟩
      · simp [hnb]
      · simp [hns]
    | true =>
      have hs : StartsWithSelectOrWith s := (startsWith_check_iff s).mp hp
      simp only [Bool.not_true, if_false]
      refine ⟨?_, fun _ => ?_, fun _ _ => rfl⟩
      · simp [hnb]
      · simp [hs]

/-- Witness for C1: a statement with no blocked keyword that does not begin
with SELECT or WITH is rejected with INVALID_SQL. -/
theorem C1_validate_query_witness :
    validate_query "EXECUTE my_function()".toList = .error ⟨"INVALID_SQL"⟩ := by
  have hnb : ¬ ContainsBlockedKeyword "EXECUTE my_function()".toList := by
    intro hcb
    rw [← BLOCKED_PATTERN_search_iff] at hcb
    revert hcb
    decide
  have hns : ¬ StartsWithSelectOrWith "EXECUTE my_function()".toList := by
    intro hs
    rw [← startsWith_check_iff] at hs
    revert hs
    decide
  exact ((C1_validate_query "EXECUTE my_function()".toList).2.1 hnb).mpr hns

/-! ## Positional-parameter conversion (`queries.py` lines 123-140)

`_convert_params` builds `{param_i: value}` from the 1-indexed parameter list
and then, for `i` from `len(params)` down to `1`, replaces every occurrence of
`$i` by `:param_i` (descending order so that `$10`, `$11`, ... are processed
before `$1`). -/

/-- Structural worker for `replaceAll`; the fuel only bounds recursion depth
and never runs out when it starts at the length of the subject string,
because every step consumes at least one character. -/
def replaceAllFuel (rep pat : List Char) : Nat → List Char → List Char
  | 0, s => s
  | _ + 1, [] => []
  | fuel + 1, c :: rest =>
      if pat ≠ [] ∧ pat.isPrefixOf (c :: rest) = true then
        rep ++ replaceAllFuel rep pat fuel ((c :: rest).drop pat.length)
      else
        c :: replaceAllFuel rep pat fuel rest

/-- Python's `s.replace(pat, rep)`: replace each non-overlapping occurrence
of `pat`, scanning left to right (the unreachable empty-pattern case is a
no-op here; the source only ever passes `"$<digits>"`). -/
def replaceAll (s pat rep : List Char) : List Char :=
  replaceAllFuel rep pat s.length s

theorem replaceAllFuel_congr (rep pat : List Char) :
    ∀ (f1 f2 : Nat) (s : List Char), s.length ≤ f1 → s.length ≤ f2 →
      replaceAllFuel rep pat f1 s = replaceAllFuel rep pat f2 s := by
  intro f1
  induction f1 with
  | zero =>
    intro f2 s hs1 _
    have hs : s = [] := List.eq_nil_of_length_eq_zero (Nat.le_zero.mp hs1)
    subst hs
    cases f2 <;> simp [replaceAllFuel]
  | succ g1 ih =>
    intro f2 s hs1 hs2
    cases s with
    | nil => cases f2 <;> simp [replaceAllFuel]
    | cons c rest =>
      cases f2 with
      | zero => simp at hs2
      | succ g2 =>
        simp only [replaceAllFuel]
        by_cases h : pat ≠ [] ∧ pat.isPrefixOf (c :: rest) = true
        · rw [if_pos h, if_pos h]
          have hpat1 : 1 ≤ pat.length := by
            cases hp : pat with
            | nil => exact absurd hp h.1
            | cons a t => simp
          have hlen1 : ((c :: rest).drop pat.length).length ≤ g1 := by
            simp only [List.length_drop, List.length_cons]
            simp only [List.length_cons] at hs1
            omega
          have hlen2 : ((c :: rest).drop pat.length).length ≤ g2 := by
            simp only [List.length_drop, List.length_cons]
            simp only [List.length_cons] at hs2
            omega
          rw [ih g2 _ hlen1 hlen2]
        · rw [if_neg h, if_neg h]
          have h1 : rest.length ≤ g1 := by
            simp only [List.length_cons] at hs1
            omega
          have h2 : rest.length ≤ g2 := by
            simp only [List.length_cons] at hs2
            omega
          rw [ih g2 rest h1 h2]

/-- Unfolding equation of `replaceAll` on a nonempty subject. -/
theorem replaceAll_cons (c : Char) (rest pat rep : List Char) :
    replaceAll (c :: rest) pat rep =
      if pat ≠ [] ∧ pat.isPrefixOf (c :: rest) = true then
        rep ++ replaceAll ((c :: rest).drop pat.length) pat rep
      else
        c :: replaceAll rest pat rep := by
  unfold replaceAll
  simp only [List.length_cons, replaceAllFuel]
  by_cases h : pat ≠ [] ∧ pat.isPrefixOf (c :: rest) = true
  · rw [if_pos h, if_pos h]
    have hpat1 : 1 ≤ pat.length := by
      cases hp : pat with
      | nil => exact absurd hp h.1
      | cons a t => simp
    rw [replaceAllFuel_congr rep pat rest.length
      ((c :: rest).drop pat.length).length _ (by
        simp only [List.length_drop, List.length_cons]; omega)
      (Nat.le_refl _)]
  · rw [if_neg h, if_neg h]

/-- Structural worker for `natDigits`; fuel bounds the digit count. -/
def natDigitsFuel : Nat → Nat → List Char
  | 0, n => [Char.ofNat (48 + n % 10)]
  | fuel + 1, n =>
      if n < 10 then [Char.ofNat (48 + n)]
      else natDigitsFuel fuel (n / 10) ++ [Char.ofNat (48 + n % 10)]

/-- Decimal digits of a natural number, most significant first (Python's
`str(i)` / f-string interpolation for a nonnegative int; the fuel only
bounds the digit count and `n` itself is always enough). -/
def natDigits (n : Nat) : List Char := natDigitsFuel n n

/-- Embedding of the `param_dict` construction: `enumerate(params, 1)`
renders `param_i` keys in order. -/
def paramDict {α : Type} (params : List α) : List (List Char × α) :=
  params.enum.map (fun p => ("param_".toList ++ natDigits (p.1 + 1), p.2))

/-- The descending replacement loop
`for i in range(len(params), 0, -1): sql = sql.replace(f"${i}", f":param_{i}")`. -/
def convertLoop (sql : List Char) : Nat → List Char
  | 0 => sql
  | i + 1 =>
      convertLoop
        (replaceAll sql ('$' :: natDigits (i + 1))
          (':' :: ("param_".toList ++ natDigits (i + 1)))) i

/-- Embedding of `QueryService._convert_params`.  Python's `if params:`
treats `None` and the empty list alike, so `params` is a plain list here. -/
def _convert_params {α : Type} (sql : List Char) (params : List α) :
    List Char × List (List Char × α) :=
  if params.isEmpty then (sql, [])
  else (convertLoop sql params.length, paramDict params)

/-! ## Claim C3: two-digit placeholders survive conversion -/

/-- C3: converting `"...a=$1 AND b=$2 AND c=$10 AND d=$11"` with an
11-element parameter list processes indices in descending order, so the
output contains the literal tokens `:param_1`, `:param_2`, `:param_10` and
`:param_11`, no `$` placeholder survives, and the returned dictionary maps
`param_i` to the i-th value for every `i` in `1..11`. -/
theorem C3_convert_params :
    (_convert_params
      "SELECT * FROM t WHERE a=$1 AND b=$2 AND c=$10 AND d=$11".toList
      [101, 102, 103, 104, 105, 106, 107, 108, 109, 110, 111]).1 =
      "SELECT * FROM t WHERE a=:param_1 AND b=:param_2 AND c=:param_10 AND d=:param_11".toList ∧
    containsSub
      (_convert_params
        "SELECT * FROM t WHERE a=$1 AND b=$2 AND c=$10 AND d=$11".toList
        [101, 102, 103, 104, 105, 106, 107, 108, 109, 110, 111]).1
      ":param_10".toList = true ∧
    containsSub
      (_convert_params
        "SELECT * FROM t WHERE a=$1 AND b=$2 AND c=$10 AND d=$11".toList
        [101, 102, 103, 104, 105, 106, 107, 108, 109, 110, 111]).1
      ":param_11".toList = true ∧
    containsSub
      (_convert_params
        "SELECT * FROM t WHERE a=$1 AND b=$2 AND c=$10 AND d=$11".toList
        [101, 102, 103, 104, 105, 106, 107, 108, 109, 110, 111]).1
      ":param_1".toList = true ∧
    containsSub
      (_convert_params
        "SELECT * FROM t WHERE a=$1 AND b=$2 AND c=$10 AND d=$11".toList
        [101, 102, 103, 104, 105, 106, 107, 108, 109, 110, 111]).1
      ":param_2".toList = true ∧
    '$' ∉ (_convert_params
      "SELECT * FROM t WHERE a=$1 AND b=$2 AND c=$10 AND d=$11".toList
      [101, 102, 103, 104, 105, 106, 107, 108, 109, 110, 111]).1 ∧
    (_convert_params
      "SELECT * FROM t WHERE a=$1 AND b=$2 AND c=$10 AND d=$11".toList
      [101, 102, 103, 104, 105, 106, 107, 108, 109, 110, 111]).2 =
      [("param_1".toList, 101), ("param_2".toList, 102),
       ("param_3".toList, 103), ("param_4".toList, 104),
       ("param_5".toList, 105), ("param_6".toList, 106),
       ("param_7".toList, 107), ("param_8".toList, 108),
       ("param_9".toList, 109), ("param_10".toList, 110),
       ("param_11".toList, 111)] := by
  decide

/-! ## Query hashing (`queries.py` lines 112-121)

`_hash_query` returns the first 8 hex characters of the SHA-256 hex digest
of the UTF-8 encoding of the final SQL text.  SHA-256 is embedded per
FIPS 180-4 on byte lists, with 32-bit words as `Nat` values reduced modulo
`2 ^ 32`. -/

/-- UTF-8 encoding of one character (scalar values only, as in Python). -/
def utf8EncodeChar (c : Char) : List Nat :=
  let n := c.toNat
  if n < 128 then [n]
  else if n < 2048 then [192 + n / 64, 128 + n % 64]
  else if n < 65536 then [224 + n / 4096, 128 + n / 64 % 64, 128 + n % 64]
  else [240 + n / 262144, 128 + n / 4096 % 64, 128 + n / 64 % 64, 128 + n % 64]

/-- Python's `str.encode()` (UTF-8 bytes). -/
def utf8Bytes (s : List Char) : List Nat := concatMap utf8EncodeChar s

/-- Reduction modulo the 32-bit word size. -/
def M32 (n : Nat) : Nat := n % 4294967296

/-- Right rotation of a 32-bit word by `k` bits. -/
def rotr32 (k w : Nat) : Nat := w / 2 ^ k + w % 2 ^ k * 2 ^ (32 - k)

/-- Logical right shift of a 32-bit word by `k` bits. -/
def shr32 (k w : Nat) : Nat := w / 2 ^ k

/-- Bitwise complement within 32 bits. -/
def not32 (w : Nat) : Nat := w ^^^ 4294967295

def shaCh (x y z : Nat) : Nat := (x &&& y) ^^^ (not32 x &&& z)

def shaMaj (x y z : Nat) : Nat := (x &&& y) ^^^ (x &&& z) ^^^ (y &&& z)

def bigSigma0 (x : Nat) : Nat := rotr32 2 x ^^^ rotr32 13 x ^^^ rotr32 22 x

def bigSigma1 (x : Nat) : Nat := rotr32 6 x ^^^ rotr32 11 x ^^^ rotr32 25 x

def smallSigma0 (x : Nat) : Nat := rotr32 7 x ^^^ rotr32 18 x ^^^ shr32 3 x

def smallSigma1 (x : Nat) : Nat := rotr32 17 x ^^^ rotr32 19 x ^^^ shr32 10 x

/-- The 64 SHA-256 round constants of FIPS 180-4 (decimal). -/
def shaK : List Nat :=
  [1116352408, 1899447441, 3049323471, 3921009573,
   961987163, 1508970993, 2453635748, 2870763221,
   3624381080, 310598401, 607225278, 1426881987,
   1925078388, 2162078206, 2614888103, 3248222580,
   3835390401, 4022224774, 264347078, 604807628,
   770255983, 1249150122, 1555081692, 1996064986,
   2554220882, 2821834349, 2952996808, 3210313671,
   3336571891, 3584528711, 113926993, 338241895,
   666307205, 773529912, 1294757372, 1396182291,
   1695183700, 1986661051, 2177026350, 2456956037,
   2730485921, 2820302411, 3259730800, 3345764771,
   3516065817, 3600352804, 4094571909, 275423344,
   430227734, 506948616, 659060556, 883997877,
   958139571, 1322822218, 1537002063, 1747873779,
   1955562222, 2024104815, 2227730452, 2361852424,
   2428436474, 2756734187, 3204031479, 3329325298]

/-- Working state of the compression function. -/
structure SHAState where
  a : Nat
  b : Nat
  c : Nat
  d : Nat
  e : Nat
  f : Nat
  g : Nat
  h : Nat

/-- Message padding: append `0x80`, zeros to 56 mod 64, then the bit length
as an 8-byte big-endian integer. -/
def shaPad (msg : List Nat) : List Nat :=
  let len := msg.length
  let zeros := (120 - (len + 1) % 64) % 64
  let bitLen := 8 * len
  msg ++ [128] ++ List.replicate zeros 0 ++
    [bitLen / 2 ^ 56 % 256, bitLen / 2 ^ 48 % 256, bitLen / 2 ^ 40 % 256,
     bitLen / 2 ^ 32 % 256, bitLen / 2 ^ 24 % 256, bitLen / 2 ^ 16 % 256,
     bitLen / 2 ^ 8 % 256, bitLen % 256]

/-- Split the padded message into 64-byte blocks (the fuel only bounds the
recursion depth and is always sufficient at the list's length). -/
def toBlocksFuel : Nat → List Nat → List (List Nat)
  | 0, _ => []
  | fuel + 1, l => if l.isEmpty then [] else l.take 64 :: toBlocksFuel fuel (l.drop 64)

def toBlocks (l : List Nat) : List (List Nat) := toBlocksFuel l.length l

/-- Big-endian 32-bit words of a block. -/
def bytesToWords : List Nat → List Nat
  | b0 :: b1 :: b2 :: b3 :: rest =>
      (b0 * 16777216 + b1 * 65536 + b2 * 256 + b3) :: bytesToWords rest
  | _ => []

/-- Message-schedule extension: append one word per step, 48 times. -/
def extendLoop : Nat → List Nat → List Nat
  | 0, ws => ws
  | fuel + 1, ws =>
      extendLoop fuel (ws ++
        [M32 (smallSigma1 (ws.getD (ws.length - 2) 0) + ws.getD (ws.length - 7) 0 +
          smallSigma0 (ws.getD (ws.length - 15) 0) + ws.getD (ws.length - 16) 0)])

def msgSchedule (ws : List Nat) : List Nat := extendLoop 48 ws

/-- One compression round with the given round constant and schedule word. -/
def roundStep (st : SHAState) (kw : Nat × Nat) : SHAState :=
  let t1 := M32 (st.h + bigSigma1 st.e + shaCh st.e st.f st.g + kw.1 + kw.2)
  let t2 := M32 (bigSigma0 st.a + shaMaj st.a st.b st.c)
  { a := M32 (t1 + t2), b := st.a, c := st.b, d := st.c,
    e := M32 (st.d + t1), f := st.e, g := st.f, h := st.g }

/-- Process one 64-byte block. -/
def compressBlock (st : SHAState) (block : List Nat) : SHAState :=
  let ws := msgSchedule (bytesToWords block)
  let t := (shaK.zip ws).foldl roundStep st
  { a := M32 (st.a + t.a), b := M32 (st.b + t.b), c := M32 (st.c + t.c),
    d := M32 (st.d + t.d), e := M32 (st.e + t.e), f := M32 (st.f + t.f),
    g := M32 (st.g + t.g), h := M32 (st.h + t.h) }

/-- Big-endian bytes of one 32-bit word. -/
def wordBytes (w : Nat) : List Nat :=
  [w / 16777216 % 256, w / 65536 % 256, w / 256 % 256, w % 256]

/-- SHA-256 digest (32 bytes) of a byte list. -/
def sha256 (msg : List Nat) : List Nat :=
  let fin := (toBlocks (shaPad msg)).foldl compressBlock
    ⟨1779033703, 3144134277, 1013904242, 2773480762,
     1359893119, 2600822924, 528734635, 1541459225⟩
  wordBytes fin.a ++ wordBytes fin.b ++ wordBytes fin.c ++ wordBytes fin.d ++
    wordBytes fin.e ++ wordBytes fin.f ++ wordBytes fin.g ++ wordBytes fin.h

/-- The lower-case hexadecimal alphabet of `hexdigest()`. -/
def hexChars : List Char := "0123456789abcdef".toList

def hexDigitChar (n : Nat) : Char := hexChars.getD n '0'

def byteHex (b : Nat) : List Char := [hexDigitChar (b / 16), hexDigitChar (b % 16)]

/-- Lower-case hex digest of a byte list. -/
def hexOfBytes (bs : List Nat) : List Char := concatMap byteHex bs

/-- Embedding of `QueryService._hash_query`:
`hashlib.sha256(sql.encode()).hexdigest()[:8]`. -/
def _hash_query (sql : List Char) : List Char :=
  (hexOfBytes (sha256 (utf8Bytes sql))).take 8

theorem length_sha256 (msg : List Nat) : (sha256 msg).length = 32 := by
  simp [sha256, wordBytes]

theorem length_hexOfBytes (bs : List Nat) :
    (hexOfBytes bs).length = 2 * bs.length := by
  induction bs with
  | nil => rfl
  | cons b t ih =>
    simp only [hexOfBytes, concatMap, byteHex] at *
    simp [ih]
    omega

theorem hexDigitChar_mem (n : Nat) : hexDigitChar n ∈ hexChars := by
  unfold hexDigitChar List.getD
  cases h : hexChars.get? n with
  | none => decide
  | some c =>
    simp only [Option.getD_some]
    exact List.get?_mem h

theorem mem_hexOfBytes {c : Char} {bs : List Nat} (hc : c ∈ hexOfBytes bs) :
    c ∈ hexChars := by
  rw [hexOfBytes, mem_concatMap] at hc
  obtain ⟨b, -, hb⟩ := hc
  simp only [byteHex, List.mem_cons, List.not_mem_nil, or_false] at hb
  rcases hb with rfl | rfl <;> exact hexDigitChar_mem _

/-! ## Query execution (`queries.py` lines 142-201)

`execute_query` validates, appends `LIMIT <limit>` when the upper-cased text
has no `LIMIT` substring, sets the statement timeout (a connection-level
side effect with no bearing on the result shape), converts parameters, runs
the statement and shapes the result.  The rows the database returns for the
final statement are externalised as the `fetched` argument; the executed
statement text is exposed in the result so that its relationship to the
input can be stated. -/

/-- Result dictionary of `execute_query` (`execution_time_ms` is wall-clock
noise and is omitted; `executed_sql` records the text passed to
`conn.execute`). -/
structure ExecResult (ρ : Type) where
  executed_sql : List Char
  columns : List (List Char × List Char)
  rows : List (List (List Char × ρ))
  row_count : Nat
  has_more : Bool
  query_hash : List Char

/-- Embedding of `QueryService.execute_query`. -/
def execute_query {α ρ : Type} (sql : List Char) (params : List α)
    (limit : Nat) (fetched : List (List (List Char × ρ))) :
    Except QueryValidationError (ExecResult ρ) :=
  match validate_query sql with
  | .error e => .error e
  | .ok () =>
    let sql1 := if containsSub (sql.map Char.toUpper) "LIMIT".toList then sql
                else sql ++ (" LIMIT ".toList ++ natDigits limit)
    let conv := _convert_params sql1 params
    .ok {
      executed_sql := conv.1,
      columns := match fetched with
        | [] => []
        | r :: _ => r.map (fun kv => (kv.1, "unknown".toList)),
      rows := fetched,
      row_count := fetched.length,
      has_more := fetched.length == limit,
      query_hash := _hash_query conv.1 }

/-! ## Claim C4: limit injection and the truncation flag -/

/-- C4: for every valid SQL input, `execute_query` appends ` LIMIT <limit>`
to the statement if and only if the upper-cased text does not contain the
substring `LIMIT`, and the returned `has_more` is true if and only if the
number of returned rows equals the requested limit exactly. -/
theorem C4_execute_query {α ρ : Type} (sql : List Char) (params : List α)
    (limit : Nat) (fetched : List (List (List Char × ρ)))
    (hv : validate_query sql = .ok ()) :
    (containsSub (sql.map Char.toUpper) "LIMIT".toList = false →
      (execute_query sql params limit fetched).map (fun r => r.executed_sql) =
        .ok (_convert_params (sql ++ (" LIMIT ".toList ++ natDigits limit))
          params).1) ∧
    (containsSub (sql.map Char.toUpper) "LIMIT".toList = true →
      (execute_query sql params limit fetched).map (fun r => r.executed_sql) =
        .ok (_convert_params sql params).1) ∧
    ((execute_query sql params limit fetched).map (fun r => r.has_more) =
      .ok true ↔ fetched.length = limit) := by
  unfold execute_query
  rw [hv]
  refine ⟨fun hc => ?_, fun hc => ?_, ?_⟩
  · rw [hc]
    simp [Except.map]
  · rw [hc]
    simp [Except.map]
  · simp [Except.map]

/-- Witness for C4: a plain `SELECT` without a LIMIT clause gets
` LIMIT 5` appended, and with zero fetched rows `has_more` is false. -/
theorem C4_execute_query_witness :
    (execute_query "SELECT 1".toList ([] : List Nat) 5
      ([] : List (List (List Char × Nat)))).map (fun r => r.executed_sql) =
      .ok (_convert_params ("SELECT 1".toList ++
        (" LIMIT ".toList ++ natDigits 5)) ([] : List Nat)).1 ∧
    ¬ ((execute_query "SELECT 1".toList ([] : List Nat) 5
      ([] : List (List (List Char × Nat)))).map (fun r => r.has_more) =
      .ok true) :=
  ⟨(C4_execute_query "SELECT 1".toList [] 5 [] (by rfl)).1 (by decide),
   fun h =>
     (by decide : ¬ ((0 : Nat) = 5))
       ((C4_execute_query "SELECT 1".toList [] 5 [] (by rfl)).2.2.mp h)⟩

/-! ## Claim C6: the query hash -/

/-- C6: the query hash is a deterministic function of the final executed SQL
text (equal texts give identical hashes, and the hash stored in the result is
the hash of the executed text), and it is always exactly the first 8
characters of the lower-case SHA-256 hex digest of that text, hence 8
lower-case hexadecimal characters. -/
theorem C6_query_hash (s t : List Char) :
    (s = t → _hash_query s = _hash_query t) ∧
    (_hash_query s).length = 8 ∧
    (∀ c ∈ _hash_query s, c ∈ hexChars) ∧
    _hash_query s = (hexOfBytes (sha256 (utf8Bytes s))).take 8 ∧
    (∀ (params : List Nat) (limit : Nat)
      (fetched : List (List (List Char × Nat))) (r : ExecResult Nat),
      execute_query s params limit fetched = .ok r →
      r.query_hash = _hash_query r.executed_sql) := by
  refine ⟨fun hst => by rw [hst], ?_, ?_, rfl, ?_⟩
  · unfold _hash_query
    rw [List.length_take, length_hexOfBytes, length_sha256]
    decide
  · intro c hc
    exact mem_hexOfBytes (List.mem_of_mem_take hc)
  · intro params limit fetched r hr
    unfold execute_query at hr
    cases hv : validate_query s with
    | error e => rw [hv] at hr; cases hr
    | ok u =>
      cases u
      rw [hv] at hr
      cases hr
      rfl

/-- Witness for C6 at a concrete SQL text. -/
theorem C6_query_hash_witness :
    _hash_query "SELECT 1".toList = _hash_query "SELECT 1".toList ∧
    (_hash_query "SELECT 1".toList).length = 8 :=
  ⟨(C6_query_hash "SELECT 1".toList "SELECT 1".toList).1 rfl,
   (C6_query_hash "SELECT 1".toList "SELECT 1".toList).2.1⟩

/-! ## Stable sorting by a natural-number key

Python's `list.sort(key=...)` / `sorted(key=...)` is a stable ascending sort
by key.  A stable ascending sort is characterised uniquely by its output
being sorted and preserving the relative order of elements per key value, so
any stable sorting algorithm models it; `List.insertionSort` with the
relation `key x ≤ key y` has exactly these two properties, proved below. -/

def sortByKey {α : Type} (f : α → Nat) (l : List α) : List α :=
  List.insertionSort (fun x y => f x ≤ f y) l

instance sortKeyTotal {α : Type} (f : α → Nat) :
    IsTotal α (fun x y => f x ≤ f y) :=
  ⟨fun a b => Nat.le_total (f a) (f b)⟩

instance sortKeyTrans {α : Type} (f : α → Nat) :
    IsTrans α (fun x y => f x ≤ f y) :=
  ⟨fun _ _ _ h1 h2 => Nat.le_trans h1 h2⟩

theorem sortByKey_sorted {α : Type} (f : α → Nat) (l : List α) :
    List.Sorted (fun x y => f x ≤ f y) (sortByKey f l) :=
  List.sorted_insertionSort _ l

theorem sortByKey_perm {α : Type} (f : α → Nat) (l : List α) :
    List.Perm (sortByKey f l) l :=
  List.perm_insertionSort _ l

theorem filter_keyEq_orderedInsert {α : Type} (f : α → Nat) (n : Nat)
    (a : α) (l : List α) :
    (List.orderedInsert (fun x y => f x ≤ f y) a l).filter
        (fun x => f x == n) =
      if f a == n then a :: l.filter (fun x => f x == n)
      else l.filter (fun x => f x == n) := by
  induction l with
  | nil =>
    by_cases h : f a = n <;> simp [List.orderedInsert, List.filter_cons, h]
  | cons b t ih =>
    by_cases hr : f a ≤ f b
    · rw [List.orderedInsert, if_pos hr]
      by_cases ha : f a = n <;> simp [List.filter_cons, ha]
    · rw [List.orderedInsert, if_neg hr]
      rw [List.filter_cons, List.filter_cons, ih]
      by_cases hb : f b = n
      · by_cases ha : f a = n
        · omega
        · simp [ha, hb]
      · by_cases ha : f a = n <;> simp [ha, hb]


theorem sortByKey_filter_keyEq {α : Type} (f : α → Nat) (n : Nat)
    (l : List α) :
    (sortByKey f l).filter (fun x => f x == n) =
      l.filter (fun x => f x == n) := by
  induction l with
  | nil => rfl
  | cons a t ih =>
    show (List.orderedInsert _ a (sortByKey f t)).filter _ = _
    rw [filter_keyEq_orderedInsert]
    by_cases ha : f a == n
    · simp [ha, ih, List.filter]
    · simp only [ha, if_false, ih, List.filter]
      simp [ha]

theorem orderedInsert_eq_cons_of_le {α : Type} (f : α → Nat) (a : α)
    {l : List α} (h : ∀ x ∈ l, f a ≤ f x) :
    List.orderedInsert (fun x y => f x ≤ f y) a l = a :: l := by
  cases l with
  | nil => rfl
  | cons c u =>
    simp only [List.orderedInsert]
    rw [if_pos (h c (List.mem_cons_self c u))]

theorem filter_orderedInsert_of_sorted {α : Type} (f : α → Nat)
    (p : α → Bool) (a : α) :
    ∀ {l : List α}, List.Sorted (fun x y => f x ≤ f y) l →
      (List.orderedInsert (fun x y => f x ≤ f y) a l).filter p =
        if p a then List.orderedInsert (fun x y => f x ≤ f y) a (l.filter p)
        else l.filter p := by
  intro l
  induction l with
  | nil =>
    intro _
    by_cases hp : p a <;> simp [List.orderedInsert, List.filter_cons, hp]
  | cons b t ih =>
    intro hs
    have hst : List.Sorted (fun x y => f x ≤ f y) t := hs.of_cons
    have hbt : ∀ x ∈ t, f b ≤ f x := List.rel_of_sorted_cons hs
    by_cases hr : f a ≤ f b
    · rw [List.orderedInsert, if_pos hr]
      by_cases hp : p a
      · by_cases hpb : p b
        · simp only [List.filter_cons, hp, hpb, if_true]
          rw [orderedInsert_eq_cons_of_le f a]
          intro x hx
          rcases List.mem_cons.mp hx with rfl | hx
          · exact hr
          · exact Nat.le_trans hr (hbt x (List.mem_of_mem_filter hx))
        · simp only [List.filter_cons, hp, hpb, if_true, Bool.false_eq_true,
            if_false]
          rw [orderedInsert_eq_cons_of_le f a]
          intro x hx
          exact Nat.le_trans hr (hbt x (List.mem_of_mem_filter hx))
      · simp [List.filter_cons, hp]
    · rw [List.orderedInsert, if_neg hr]
      rw [List.filter_cons, List.filter_cons, ih hst]
      by_cases hpb : p b
      · simp only [hpb, if_true]
        by_cases hp : p a
        · simp only [hp, if_true]
          rw [List.orderedInsert, if_neg hr]
        · simp only [hp, Bool.false_eq_true, if_false]
      · simp only [hpb, Bool.false_eq_true, if_false]


theorem sortByKey_filter_commute {α : Type} (f : α → Nat) (p : α → Bool)
    (l : List α) :
    sortByKey f (l.filter p) = (sortByKey f l).filter p := by
  induction l with
  | nil => rfl
  | cons a t ih =>
    show sortByKey f ((a :: t).filter p) =
      (List.orderedInsert _ a (sortByKey f t)).filter p
    rw [filter_orderedInsert_of_sorted f p a (sortByKey_sorted f t)]
    by_cases hp : p a
    · simp only [List.filter, hp, if_true]
      show List.orderedInsert _ a (sortByKey f (t.filter p)) = _
      rw [ih]
    · simp only [List.filter, hp, if_false, Bool.false_eq_true]
      rw [ih]

/-! ## Foreign-key graph and BFS join-path search
(`relationships.py` lines 144-255)

`find_join_path` turns the fetched catalog rows into edge dicts, returns `[]`
immediately when the start and end `"schema.table"` identities coincide, and
otherwise runs `_bfs_paths`.

`_bfs_paths` builds an adjacency map (a Python dict of lists keyed by node,
in insertion order: for each edge in list order, the forward copy is appended
to `adj[from]` and a reversed synthetic copy to `adj[to]`), then runs a FIFO
BFS over `(current, path, visited)` triples seeded with `(start, [], {start})`.

The deque-based loop is embedded by layers: every queued entry with a path of
length `d` precedes every entry with length `d + 1` and entries are popped in
insertion order, so processing the queue is the same as processing the
successive layers in order, each layer being the concatenation, in order, of
the children of the previous layer's entries.  `found_paths` receives, per
popped entry in order, the accepted extensions in adjacency order, which the
layered form reproduces exactly.  An entry is enqueued only when its new path
length is strictly below `max_depth`, so layer `d` is nonempty only for
`d < max_depth`; the fuel `max_depth` therefore never runs out before the
queue empties, and at fuel `0` only the found paths of the last layer remain
to be collected. -/

/-- One catalog row of the `ALL_FK_SQL` fetch. -/
structure FKRow where
  from_schema : List Char
  from_table : List Char
  from_column : List Char
  to_schema : List Char
  to_table : List Char
  to_column : List Char
  constraint_name : List Char
deriving DecidableEq, Repr

/-- Edge dictionary built by `find_join_path` (the `reversed` key is absent
on forward edges, i.e. `false` under `edge.get("reversed", False)`). -/
structure FKEdge where
  efrom : List Char
  eto : List Char
  from_col : List Char
  to_col : List Char
  constraint : List Char
  reversed : Bool
deriving DecidableEq, Repr

/-- The edge dict `{"from": f"{from_schema}.{from_table}", ...}` of
`find_join_path`. -/
def mkEdge (r : FKRow) : FKEdge :=
  { efrom := r.from_schema ++ '.' :: r.from_table,
    eto := r.to_schema ++ '.' :: r.to_table,
    from_col := r.from_column,
    to_col := r.to_column,
    constraint := r.constraint_name,
    reversed := false }

/-- The synthetic reversed counterpart inserted into `adj[e["to"]]`. -/
def revOf (e : FKEdge) : FKEdge :=
  { efrom := e.eto, eto := e.efrom, from_col := e.to_col,
    to_col := e.from_col, constraint := e.constraint, reversed := true }

/-- `adj.get(n, [])` of the adjacency dict: for each edge in list order, its
forward copy when `n` is its source, then its reversed copy when `n` is its
target. -/
def adjOf (edges : List FKEdge) (n : List Char) : List FKEdge :=
  concatMap (fun e =>
    (if e.efrom = n then [e] else []) ++
    (if e.eto = n then [revOf e] else [])) edges

/-- A queue entry `(current, path, visited)`; the visited set is modelled as
a list used only for membership. -/
structure BFSEntry where
  cur : List Char
  path : List FKEdge
  visited : List (List Char)

/-- Processing of one popped entry: the accepted paths it contributes (in
adjacency order) and the entries it enqueues (in adjacency order). -/
def processEntry (adj : List Char → List FKEdge) (endNode : List Char)
    (max_depth : Nat) (ent : BFSEntry) :
    List (List FKEdge) × List BFSEntry :=
  if ent.path.length > max_depth then ([], [])
  else if ent.cur = endNode ∧ ent.path ≠ [] then ([ent.path], [])
  else
    ((adj ent.cur).filterMap (fun e =>
        if e.eto ∉ ent.visited ∧ e.eto = endNode then some (ent.path ++ [e])
        else none),
     (adj ent.cur).filterMap (fun e =>
        if e.eto ∉ ent.visited ∧ e.eto ≠ endNode ∧
            ent.path.length + 1 < max_depth then
          some ⟨e.eto, ent.path ++ [e], e.eto :: ent.visited⟩
        else none))

/-- Layer-by-layer BFS; `found_paths` in discovery order. -/
def bfsAux (adj : List Char → List FKEdge) (endNode : List Char)
    (max_depth : Nat) : Nat → List BFSEntry → List (List FKEdge)
  | 0, layer =>
      concatMap (fun ent => (processEntry adj endNode max_depth ent).1) layer
  | fuel + 1, layer =>
      concatMap (fun ent => (processEntry adj endNode max_depth ent).1) layer ++
      bfsAux adj endNode max_depth fuel
        (concatMap (fun ent => (processEntry adj endNode max_depth ent).2) layer)

/-- The `found_paths` list of `_bfs_paths` just before the final sort. -/
def bfs_found (edges : List FKEdge) (start endNode : List Char)
    (max_depth : Nat) : List (List FKEdge) :=
  bfsAux (adjOf edges) endNode max_depth max_depth [⟨start, [], [start]⟩]

/-- Embedding of `RelationshipService._bfs_paths`; the final
`found_paths.sort(key=len)` is the stable ascending sort by path length. -/
def _bfs_paths (edges : List FKEdge) (start endNode : List Char)
    (max_depth : Nat) : List (List FKEdge) :=
  sortByKey List.length (bfs_found edges start endNode max_depth)

/-- Embedding of `RelationshipService.find_join_path` on the fetched rows. -/
def find_join_path (rows : List FKRow)
    (from_schema from_table to_schema to_table : List Char)
    (max_depth : Nat) : List (List FKEdge) :=
  let edges := rows.map mkEdge
  let start := from_schema ++ '.' :: from_table
  let endNode := to_schema ++ '.' :: to_table
  if start = endNode then [] else _bfs_paths edges start endNode max_depth

/-! ## Claim C2: concrete BFS path-finding cases -/

/-- A `public`-schema foreign-key row `ft → tt` used in the C2 scenarios. -/
def c2Row (ft tt cn : String) : FKRow :=
  { from_schema := "public".toList, from_table := ft.toList,
    from_column := (tt ++ "_id").toList,
    to_schema := "public".toList, to_table := tt.toList,
    to_column := "id".toList, constraint_name := cn.toList }

/-- C2: a single edge A→B yields exactly one path of length 1; the chain
A→B→C→D yields no path from A to D at `max_depth = 2` and exactly the one
length-3 path at `max_depth = 3`; the diamond A→B→D, A→C→D yields exactly
the two length-2 paths; and whenever the start node equals the end node,
`find_join_path` returns `[]` whatever the edges. -/
theorem C2_bfs_cases :
    (find_join_path [c2Row "a" "b" "fk1"] "public".toList "a".toList
      "public".toList "b".toList 4 = [[mkEdge (c2Row "a" "b" "fk1")]]) ∧
    (find_join_path [c2Row "a" "b" "fk1", c2Row "b" "c" "fk2",
      c2Row "c" "d" "fk3"] "public".toList "a".toList "public".toList
      "d".toList 2 = []) ∧
    (find_join_path [c2Row "a" "b" "fk1", c2Row "b" "c" "fk2",
      c2Row "c" "d" "fk3"] "public".toList "a".toList "public".toList
      "d".toList 3 =
      [[mkEdge (c2Row "a" "b" "fk1"), mkEdge (c2Row "b" "c" "fk2"),
        mkEdge (c2Row "c" "d" "fk3")]]) ∧
    (find_join_path [c2Row "a" "b" "fk1", c2Row "b" "d" "fk2",
      c2Row "a" "c" "fk3", c2Row "c" "d" "fk4"] "public".toList "a".toList
      "public".toList "d".toList 4 =
      [[mkEdge (c2Row "a" "b" "fk1"), mkEdge (c2Row "b" "d" "fk2")],
       [mkEdge (c2Row "a" "c" "fk3"), mkEdge (c2Row "c" "d" "fk4")]]) ∧
    (∀ (rows : List FKRow) (fs ft ts tt : List Char) (d : Nat),
      fs ++ '.' :: ft = ts ++ '.' :: tt →
      find_join_path rows fs ft ts tt d = []) := by
  refine ⟨by decide, by decide, by decide, by decide, ?_⟩
  intro rows fs ft ts tt d h
  unfold find_join_path
  simp [h]

/-- Witness for C2's universal conjunct: same start and end table. -/
theorem C2_bfs_cases_witness :
    find_join_path [c2Row "a" "b" "fk1"] "public".toList "x".toList
      "public".toList "x".toList 4 = [] :=
  C2_bfs_cases.2.2.2.2 [c2Row "a" "b" "fk1"] "public".toList "x".toList
    "public".toList "x".toList 4 rfl

/-! ## Claim C7: result ordering of the BFS path-finder -/

/-- C7: for every edge set, start, end and depth bound, the list returned by
`_bfs_paths` is sorted by non-decreasing path length, and for each length the
subsequence of paths of that length is exactly the discovery-order
subsequence of `found_paths` (the sort is stable on ties). -/
theorem C7_paths_sorted (edges : List FKEdge) (start endNode : List Char)
    (max_depth : Nat) :
    List.Sorted (fun p q : List FKEdge => p.length ≤ q.length)
      (_bfs_paths edges start endNode max_depth) ∧
    ∀ n : Nat,
      (_bfs_paths edges start endNode max_depth).filter
          (fun p => p.length == n) =
        (bfs_found edges start endNode max_depth).filter
          (fun p => p.length == n) :=
  ⟨sortByKey_sorted List.length _, fun n => sortByKey_filter_keyEq _ n _⟩

/-! ## Claim C9: returned paths are simple -/

/-- The nodes along a path starting at `start`: the start node followed by
the target node of every step. -/
def pathNodes (start : List Char) (p : List FKEdge) : List (List Char) :=
  start :: p.map FKEdge.eto

/-- Invariant of every queue entry: the nodes along its path are pairwise
distinct and all recorded in its visited set. -/
def EntryInv (start : List Char) (ent : BFSEntry) : Prop :=
  (pathNodes start ent.path).Nodup ∧
  ∀ x ∈ pathNodes start ent.path, x ∈ ent.visited

theorem pathNodes_append (start : List Char) (p : List FKEdge) (e : FKEdge) :
    pathNodes start (p ++ [e]) = pathNodes start p ++ [e.eto] := by
  simp [pathNodes]

theorem processEntry_found_nodup {adj : List Char → List FKEdge}
    {endNode : List Char} {max_depth : Nat} {start : List Char}
    {ent : BFSEntry} (hI : EntryInv start ent) :
    ∀ p ∈ (processEntry adj endNode max_depth ent).1,
      (pathNodes start p).Nodup := by
  intro p hp
  unfold processEntry at hp
  split at hp
  · cases hp
  · split at hp
    · rcases List.mem_singleton.mp hp with rfl
      exact hI.1
    · rw [List.mem_filterMap] at hp
      obtain ⟨e, -, he⟩ := hp
      split at he
      · rename_i hcond
        cases he
        rw [pathNodes_append]
        rw [List.nodup_append]
        refine ⟨hI.1, List.nodup_singleton _, ?_⟩
        intro x hx hx'
        rcases List.mem_singleton.mp hx' with rfl
        exact hcond.1 (hI.2 _ hx)
      · cases he

theorem processEntry_children_inv {adj : List Char → List FKEdge}
    {endNode : List Char} {max_depth : Nat} {start : List Char}
    {ent : BFSEntry} (hI : EntryInv start ent) :
    ∀ ent' ∈ (processEntry adj endNode max_depth ent).2,
      EntryInv start ent' := by
  intro ent' hent
  unfold processEntry at hent
  split at hent
  · cases hent
  · split at hent
    · cases hent
    · rw [List.mem_filterMap] at hent
      obtain ⟨e, -, he⟩ := hent
      split at he
      · rename_i hcond
        cases he
        constructor
        · rw [pathNodes_append, List.nodup_append]
          refine ⟨hI.1, List.nodup_singleton _, ?_⟩
          intro x hx hx'
          rcases List.mem_singleton.mp hx' with rfl
          exact hcond.1 (hI.2 _ hx)
        · intro x hx
          rw [pathNodes_append] at hx
          rcases List.mem_append.mp hx with hx | hx
          · exact List.mem_cons_of_mem _ (hI.2 x hx)
          · rcases List.mem_singleton.mp hx with rfl
            exact List.mem_cons_self _ _
      · cases he

theorem bfsAux_nodup (adj : List Char → List FKEdge) (endNode : List Char)
    (max_depth : Nat) (start : List Char) :
    ∀ (fuel : Nat) (layer : List BFSEntry),
      (∀ ent ∈ layer, EntryInv start ent) →
      ∀ p ∈ bfsAux adj endNode max_depth fuel layer,
        (pathNodes start p).Nodup := by
  intro fuel
  induction fuel with
  | zero =>
    intro layer hlayer p hp
    rw [bfsAux, mem_concatMap] at hp
    obtain ⟨ent, hent, hp⟩ := hp
    exact processEntry_found_nodup (hlayer ent hent) p hp
  | succ fuel ih =>
    intro layer hlayer p hp
    rw [bfsAux, List.mem_append] at hp
    rcases hp with hp | hp
    · rw [mem_concatMap] at hp
      obtain ⟨ent, hent, hp⟩ := hp
      exact processEntry_found_nodup (hlayer ent hent) p hp
    · refine ih _ ?_ p hp
      intro ent' hent'
      rw [mem_concatMap] at hent'
      obtain ⟨ent, hent, hent'⟩ := hent'
      exact processEntry_children_inv (hlayer ent hent) ent' hent'

/-- C9: every path returned by `_bfs_paths` is simple: the start node and
the target node of every step are pairwise distinct, for every edge set,
start, end and depth bound. -/
theorem C9_simple_paths (edges : List FKEdge) (start endNode : List Char)
    (max_depth : Nat) :
    ∀ p ∈ _bfs_paths edges start endNode max_depth,
      (pathNodes start p).Nodup := by
  intro p hp
  have hp' : p ∈ bfs_found edges start endNode max_depth :=
    (sortByKey_perm List.length _).mem_iff.mp hp
  refine bfsAux_nodup (adjOf edges) endNode max_depth start max_depth
    [⟨start, [], [start]⟩] ?_ p hp'
  intro ent hent
  rcases List.mem_singleton.mp hent with rfl
  exact ⟨List.nodup_singleton _, by intro x hx; simpa [pathNodes] using hx⟩

/-- Witness for C9 on the single-edge graph: the one returned path has
distinct nodes. -/
theorem C9_simple_paths_witness :
    (pathNodes "public.a".toList [mkEdge (c2Row "a" "b" "fk1")]).Nodup :=
  C9_simple_paths [mkEdge (c2Row "a" "b" "fk1")] "public.a".toList
    "public.b".toList 4 [mkEdge (c2Row "a" "b" "fk1")] (by decide)

/-! ## Similar-name suggestion (`errors.py` lines 75-110)

`find_similar_names` scores every candidate with the nested
`levenshtein_distance` helper (a two-row dynamic program over prefixes of the
lower-cased strings, with an argument swap so the first string is never the
shorter), sorts the scored pairs stably by distance, truncates to
`max_results` and keeps the candidates with distance at most 3. -/

/-- The classic Levenshtein prefix recurrence, written from the claim's
words: `levPrefix s t i j` is the single-character insertion / deletion /
substitution distance between the first `i` characters of `s` and the first
`j` characters of `t` (inner recursion on `j` with the previous row as a
function, so every defining equation below holds by `rfl`). -/
def levPrefixRow (prev : Nat → Nat) (ci : Char) (t : List Char)
    (base : Nat) : Nat → Nat
  | 0 => base
  | j + 1 =>
      min (prev (j + 1) + 1)
        (min (levPrefixRow prev ci t base j + 1)
          (prev j + (if ci = t.getD j ' ' then 0 else 1)))

def levPrefix (s t : List Char) : Nat → Nat → Nat
  | 0 => fun j => j
  | i + 1 => levPrefixRow (levPrefix s t i) (s.getD i ' ') t (i + 1)

/-- Defining equation: an empty first prefix costs the length of the second. -/
theorem levPrefix_zero_left (s t : List Char) (j : Nat) :
    levPrefix s t 0 j = j := rfl

/-- Defining equation: an empty second prefix costs the length of the first. -/
theorem levPrefix_zero_right (s t : List Char) (i : Nat) :
    levPrefix s t i 0 = i := by
  cases i <;> rfl

/-- Defining equation: the three-way minimum over insertion, deletion and
substitution. -/
theorem levPrefix_succ_succ (s t : List Char) (i j : Nat) :
    levPrefix s t (i + 1) (j + 1) =
      min (levPrefix s t i (j + 1) + 1)
        (min (levPrefix s t (i + 1) j + 1)
          (levPrefix s t i j + (if s.getD i ' ' = t.getD j ' ' then 0 else 1))) :=
  rfl

/-- The classic Levenshtein distance of two whole strings. -/
def levSpec (s t : List Char) : Nat := levPrefix s t s.length t.length

theorem levPrefix_comm (s t : List Char) :
    ∀ i j, levPrefix s t i j = levPrefix t s j i := by
  intro i
  induction i with
  | zero =>
    intro j
    rw [levPrefix_zero_left, levPrefix_zero_right]
  | succ i ih =>
    intro j
    induction j with
    | zero => rw [levPrefix_zero_left, levPrefix_zero_right]
    | succ j ihj =>
      rw [levPrefix_succ_succ, levPrefix_succ_succ, ih (j + 1), ihj, ih j]
      have hcost : (if s.getD i ' ' = t.getD j ' ' then 0 else 1) =
          (if t.getD j ' ' = s.getD i ' ' then (0 : Nat) else 1) := by
        by_cases h : s.getD i ' ' = t.getD j ' ' <;> simp [h, eq_comm]
      rw [hcost]
      omega

/-- Levenshtein symmetry. -/
theorem levSpec_comm (s t : List Char) : levSpec s t = levSpec t s :=
  levPrefix_comm s t s.length t.length

/-- The inner loop of the source's dynamic program: given the previous-row
suffix (two or more entries) and the last value appended to the current row,
produce the remaining current-row values in order. -/
def rowStep (c1 : Char) : List Char → List Nat → Nat → List Nat
  | c2 :: s2t, p0 :: p1 :: prest, last =>
      min (p1 + 1)
        (min (last + 1) (p0 + (if c1 = c2 then 0 else 1))) ::
      rowStep c1 s2t (p1 :: prest)
        (min (p1 + 1) (min (last + 1) (p0 + (if c1 = c2 then 0 else 1))))
  | _, _, _ => []

/-- The outer loop over `s1`'s characters (`i` is the 0-based index of the
current character; `curr_row` starts as `[i + 1]`). -/
def levLoop (s2 : List Char) : List Char → List Nat → Nat → List Nat
  | [], prev, _ => prev
  | c1 :: s1t, prev, i =>
      levLoop s2 s1t ((i + 1) :: rowStep c1 s2 prev (i + 1)) (i + 1)

/-- The body of `levenshtein_distance` after the swap guard
(`if len(s2) == 0: return len(s1)`, then the row loop, then `prev_row[-1]`). -/
def levCore (s1 s2 : List Char) : Nat :=
  if s2.length = 0 then s1.length
  else (levLoop s2 s1 (List.range (s2.length + 1)) 0).getLastD 0

/-- Embedding of the nested `levenshtein_distance` helper: the recursive
swap call `levenshtein_distance(s2, s1)` immediately enters the main body
because the swapped test fails, so it is inlined as a one-time swap. -/
def levenshtein_distance (s1 s2 : List Char) : Nat :=
  if s1.length < s2.length then levCore s2 s1 else levCore s1 s2

theorem drop_eq_getD_cons {α : Type} (d : α) :
    ∀ (l : List α) (j : Nat), j < l.length →
      l.drop j = l.getD j d :: l.drop (j + 1) := by
  intro l
  induction l with
  | nil =>
    intro j hj
    simp at hj
  | cons a u ih =>
    intro j hj
    cases j with
    | zero => simp
    | succ j' =>
      simp only [List.drop_succ_cons, List.getD_cons_succ]
      exact ih j' (by simpa using hj)

theorem rowStep_spec (s t : List Char) (i : Nat) :
    ∀ (k j : Nat), k = t.length - j → j ≤ t.length →
      rowStep (s.getD i ' ') (t.drop j)
        ((List.range' j (t.length + 1 - j)).map (levPrefix s t i))
        (levPrefix s t (i + 1) j) =
      (List.range' (j + 1) (t.length - j)).map (levPrefix s t (i + 1)) := by
  intro k
  induction k with
  | zero =>
    intro j hk hj
    have hj' : j = t.length := by omega
    subst hj'
    rw [List.drop_length]
    have hz : t.length - t.length = 0 := Nat.sub_self _
    rw [hz]
    simp [rowStep]
  | succ k ih =>
    intro j hk hj
    have hjlt : j < t.length := by omega
    rw [drop_eq_getD_cons ' ' t j hjlt]
    have h1 : t.length + 1 - j = k + 2 := by omega
    have h2 : t.length - j = k + 1 := by omega
    rw [h1, h2]
    have e1 : (List.range' j (k + 2)).map (levPrefix s t i) =
        levPrefix s t i j :: levPrefix s t i (j + 1) ::
          (List.range' (j + 2) k).map (levPrefix s t i) := by
      rw [List.range'_succ, List.range'_succ]
      simp
    have e2 : (List.range' (j + 1) (k + 1)).map (levPrefix s t (i + 1)) =
        levPrefix s t (i + 1) (j + 1) ::
          (List.range' (j + 2) k).map (levPrefix s t (i + 1)) := by
      rw [List.range'_succ]
      simp
    rw [e1, e2]
    simp only [rowStep]
    rw [show min (levPrefix s t i (j + 1) + 1)
        (min (levPrefix s t (i + 1) j + 1)
          (levPrefix s t i j +
            (if s.getD i ' ' = t.getD j ' ' then 0 else 1))) =
        levPrefix s t (i + 1) (j + 1) from (levPrefix_succ_succ s t i j).symm]
    have e3 : (List.range' (j + 1) (k + 1)).map (levPrefix s t i) =
        levPrefix s t i (j + 1) ::
          (List.range' (j + 2) k).map (levPrefix s t i) := by
      rw [List.range'_succ]
      simp
    have hrec := ih (j + 1) (by omega) (by omega)
    have h3 : t.length + 1 - (j + 1) = k + 1 := by omega
    have h4 : t.length - (j + 1) = k := by omega
    rw [h3, h4, e3] at hrec
    rw [hrec]

theorem levLoop_spec (s t : List Char) :
    ∀ (s1suf : List Char) (i : Nat),
      s1suf = s.drop i → i ≤ s.length →
      levLoop t s1suf
        ((List.range' 0 (t.length + 1)).map (levPrefix s t i)) i =
      (List.range' 0 (t.length + 1)).map (levPrefix s t s.length) := by
  intro s1suf
  induction s1suf with
  | nil =>
    intro i hdrop hi
    have hge : s.length ≤ i := by
      by_contra hlt
      push_neg at hlt
      rw [drop_eq_getD_cons ' ' s i hlt] at hdrop
      cases hdrop
    have : i = s.length := by omega
    subst this
    rfl
  | cons c1 rest ih =>
    intro i hdrop hi
    have hlt : i < s.length := by
      by_contra h
      push_neg at h
      rw [List.drop_eq_nil_of_le h] at hdrop
      cases hdrop
    rw [drop_eq_getD_cons ' ' s i hlt] at hdrop
    injection hdrop with hc1 hrest
    show levLoop t rest
        ((i + 1) :: rowStep c1 t
          ((List.range' 0 (t.length + 1)).map (levPrefix s t i)) (i + 1))
        (i + 1) = _
    have hrow : (i + 1) :: rowStep c1 t
        ((List.range' 0 (t.length + 1)).map (levPrefix s t i)) (i + 1) =
        (List.range' 0 (t.length + 1)).map (levPrefix s t (i + 1)) := by
      subst hc1
      have hstep := rowStep_spec s t i (t.length - 0) 0 rfl (Nat.zero_le _)
      rw [List.drop_zero] at hstep
      simp only [Nat.sub_zero, Nat.zero_add, levPrefix_zero_right] at hstep
      rw [hstep, List.range'_succ]
      simp [levPrefix_zero_right]
    rw [hrow]
    exact ih (i + 1) hrest (by omega)

theorem levCore_spec (s1 s2 : List Char) : levCore s1 s2 = levSpec s1 s2 := by
  unfold levCore levSpec
  by_cases h2 : s2.length = 0
  · rw [if_pos h2, h2, levPrefix_zero_right]
  · rw [if_neg h2]
    have hinit : List.range (s2.length + 1) =
        (List.range' 0 (s2.length + 1)).map (levPrefix s1 s2 0) := by
      rw [List.range_eq_range']
      rw [show levPrefix s1 s2 0 = fun j => j from rfl]
      simp
    rw [hinit, levLoop_spec s1 s2 s1 0 (by rw [List.drop_zero]) (Nat.zero_le _)]
    rw [List.range'_1_concat, List.map_append,
      show List.map (levPrefix s1 s2 s1.length) [0 + s2.length] =
        [levPrefix s1 s2 s1.length s2.length] by simp]
    rw [List.getLastD_concat]

/-- The helper computes the classic Levenshtein distance (the swap branch is
covered by symmetry of the distance). -/
theorem levenshtein_distance_eq (s1 s2 : List Char) :
    levenshtein_distance s1 s2 = levSpec s1 s2 := by
  unfold levenshtein_distance
  by_cases h : s1.length < s2.length
  · rw [if_pos h, levCore_spec, levSpec_comm]
  · rw [if_neg h, levCore_spec]

/-- Embedding of `find_similar_names`: score each candidate case-insensitively,
sort stably ascending by distance (`scored.sort(key=lambda x: x[1])`), slice
to `max_results`, then keep candidates with distance at most 3
(`[c for c, d in scored[:max_results] if d <= 3]`). -/
def find_similar_names (name : List Char) (candidates : List (List Char))
    (max_results : Nat) : List (List Char) :=
  (((sortByKey (fun x => x.2)
      (candidates.map (fun c =>
        (c, levenshtein_distance (name.map Char.toLower)
          (c.map Char.toLower))))).take max_results).filter
    (fun x => decide (x.2 ≤ 3))).map (fun x => x.1)

/-- Specification-side scoring: every candidate paired with its classic
Levenshtein distance to the query, compared case-insensitively. -/
def scoredSpec (name : List Char) (candidates : List (List Char)) :
    List (List Char × Nat) :=
  candidates.map (fun c =>
    (c, levSpec (name.map Char.toLower) (c.map Char.toLower)))

/-- The claim's reading of the contract: filter to distance at most 3 first,
sort stably ascending by distance, then truncate to `max_results`. -/
def find_similar_spec (name : List Char) (candidates : List (List Char))
    (max_results : Nat) : List (List Char) :=
  (((sortByKey (fun x => x.2)
      ((scoredSpec name candidates).filter
        (fun x => decide (x.2 ≤ 3)))).take max_results)).map (fun x => x.1)

theorem filter_take_of_sorted {α : Type} (f : α → Nat) (m : Nat) :
    ∀ (S : List α), List.Sorted (fun x y => f x ≤ f y) S → ∀ (k : Nat),
      (S.take k).filter (fun x => decide (f x ≤ m)) =
      (S.filter (fun x => decide (f x ≤ m))).take k := by
  intro S
  induction S with
  | nil =>
    intro _ k
    simp
  | cons a t ih =>
    intro hS k
    cases k with
    | zero => simp
    | succ k' =>
      rw [List.take_succ_cons, List.filter_cons, List.filter_cons]
      by_cases hfa : f a ≤ m
      · have hd : decide (f a ≤ m) = true := by simp [hfa]
        rw [hd, if_pos rfl, if_pos rfl, List.take_succ_cons, ih hS.of_cons k']
      · have htall : ∀ x ∈ t, ¬ (f x ≤ m) := fun x hx hxm =>
          hfa (Nat.le_trans (List.rel_of_sorted_cons hS x hx) hxm)
        have h1 : t.filter (fun x => decide (f x ≤ m)) = [] :=
          List.filter_eq_nil_iff.mpr (fun x hx => by simpa using htall x hx)
        have h2 : (t.take k').filter (fun x => decide (f x ≤ m)) = [] :=
          List.filter_eq_nil_iff.mpr (fun x hx => by
            simpa using htall x (List.mem_of_mem_take hx))
        have hd : decide (f a ≤ m) = false := by simp [hfa]
        rw [hd, if_neg (by simp), if_neg (by simp), h1, h2, List.take_nil]

/-! ## Claim C8: similar-name suggestions -/

/-- C8: `find_similar_names` returns exactly the candidates whose classic
Levenshtein distance to the query (compared case-insensitively) is at most 3,
sorted ascending by distance with the original candidate order preserved on
ties, truncated to `max_results` — and the code's truncate-after-sorting
order equals the claim's filter-before-truncating order. -/
theorem C8_find_similar_names (name : List Char)
    (candidates : List (List Char)) (max_results : Nat) :
    find_similar_names name candidates max_results =
      find_similar_spec name candidates max_results ∧
    List.Sorted (fun a b : List Char =>
      levSpec (name.map Char.toLower) (a.map Char.toLower) ≤
      levSpec (name.map Char.toLower) (b.map Char.toLower))
      (find_similar_names name candidates max_results) ∧
    ∀ d : Nat,
      (sortByKey (fun x => x.2) (scoredSpec name candidates)).filter
          (fun x => x.2 == d) =
        (scoredSpec name candidates).filter (fun x => x.2 == d) := by
  have hscored : candidates.map (fun c =>
      (c, levenshtein_distance (name.map Char.toLower)
        (c.map Char.toLower))) = scoredSpec name candidates := by
    unfold scoredSpec
    refine List.map_congr_left ?_
    intro c _
    rw [levenshtein_distance_eq]
  refine ⟨?_, ?_, fun d => sortByKey_filter_keyEq
    (fun x : List Char × Nat => x.2) d (scoredSpec name candidates)⟩
  · unfold find_similar_names find_similar_spec
    rw [hscored]
    rw [sortByKey_filter_commute (fun x => x.2) (fun x => decide (x.2 ≤ 3))
      (scoredSpec name candidates)]
    rw [← filter_take_of_sorted (fun x : List Char × Nat => x.2) 3 _
      (sortByKey_sorted (fun x : List Char × Nat => x.2)
        (scoredSpec name candidates))
      max_results]
  · unfold find_similar_names
    rw [hscored]
    have hS := sortByKey_sorted (fun x => x.2) (scoredSpec name candidates)
    have hsub : List.Sublist
        (((sortByKey (fun x => x.2)
          (scoredSpec name candidates)).take max_results).filter
          (fun x => decide (x.2 ≤ 3)))
        (sortByKey (fun x => x.2) (scoredSpec name candidates)) :=
      (List.filter_sublist _).trans (List.take_sublist _ _)
    have hsorted' : List.Sorted (fun x y : List Char × Nat => x.2 ≤ y.2)
        (((sortByKey (fun x => x.2)
          (scoredSpec name candidates)).take max_results).filter
          (fun x => decide (x.2 ≤ 3))) :=
      List.Pairwise.sublist hsub hS
    have hval : ∀ x ∈ ((sortByKey (fun x => x.2)
        (scoredSpec name candidates)).take max_results).filter
        (fun x => decide (x.2 ≤ 3)),
        x.2 = levSpec (name.map Char.toLower) (x.1.map Char.toLower) := by
      intro x hx
      have hxS := hsub.subset hx
      have hxL : x ∈ scoredSpec name candidates :=
        (sortByKey_perm (fun x => x.2) _).mem_iff.mp hxS
      obtain ⟨c, -, rfl⟩ := List.mem_map.mp hxL
      rfl
    rw [List.Sorted, List.pairwise_map]
    refine List.Pairwise.imp_of_mem ?_ hsorted'
    intro a b ha hb hab
    rw [← hval a ha, ← hval b hb]
    exact hab
